import Mathlib

/-!
# Cabana "Find Signal" search model

A shallow embedding of `tools/cabana/tools/findsignal.cc` / `findsignal.h`:
the candidate generator `FindSignalDlg::setInitialSignals`, the refinement
round `FindSignalModel::search`, the history operations
`FindSignalModel::undo` / `FindSignalModel::reset`, and the dialog methods
`FindSignalDlg::search` and `FindSignalDlg::modelReset`.

Conventions of the embedding

* `uint64_t` time stamps are natural numbers; the code only compares them.
* `int` loop counters are integers (`total_size - size` may be negative;
  message lengths are far below the range of `int`).
* `double` values are only copied, decoded by `get_raw_value` and handed to the
  predicate, so their type is a parameter `D`.
* `QList` / `std::vector` are lists; `histories.back()` is the last element.
-/

namespace FindSignal

/-! ## Data model -/

/-- Key of a message source (`MessageId`, declared outside `findsignal.*`);
only copied and used as a lookup key. -/
abbrev MessageId := Nat

/-- The fields of `cabana::Signal` that `findsignal.cc` reads or writes.
The struct itself is declared outside `findsignal.*`. -/
structure Signal (D : Type) where
  start_bit : Int
  size : Int
  is_little_endian : Bool
  is_signed : Bool
  factor : D
  offset : D
deriving DecidableEq, Repr

/-- One recorded occurrence of a message: `e->mono_time`, `e->dat`, `e->size`. -/
structure CanEvent where
  mono_time : Nat
  dat : List Nat
  size : Nat
deriving DecidableEq, Repr

/-- The part of a `last_msgs` value that the generator reads: `it.value().dat`. -/
structure CanData where
  dat : List Nat
deriving DecidableEq, Repr

/-- The log accessor `can`: `can->events(id)` and the key/value pairs of
`can->last_msgs` in iteration order. -/
structure CanStream where
  events : MessageId → List CanEvent
  last_msgs : List (MessageId × CanData)

/-- The struct `FindSignalModel::SearchSignal`. An entry of `values` is kept as the two
arguments of the `QString("(%1, %2)")` the code appends: the matched event's
`mono_time` and the decoded value. -/
structure SearchSignal (D : Type) where
  id : MessageId
  mono_time : Nat
  sig : Signal D
  values : List (Nat × D)
deriving DecidableEq, Repr

/-- The three data members of `FindSignalModel`. -/
structure FindSignalModel (D : Type) where
  filtered_signals : List (SearchSignal D)
  initial_signals : List (SearchSignal D)
  histories : List (List (SearchSignal D))
deriving DecidableEq, Repr

/-- The freshly constructed model: all three lists empty. -/
def FindSignalModel.fresh (D : Type) : FindSignalModel D :=
  { filtered_signals := [], initial_signals := [], histories := [] }

/-- The order in which the workers of `QtConcurrent::blockingMap` reach the
`push_back` under the mutex: some rearrangement of the survivors. -/
structure Schedule (D : Type) where
  order : List (SearchSignal D) → List (SearchSignal D)
  perm : ∀ l, (order l).Perm l

/-- The single-threaded schedule: survivors are appended in input order. -/
def Schedule.sequential (D : Type) : Schedule D :=
  { order := fun l => l, perm := fun l => List.Perm.refl l }

/-- A schedule that appends the survivors in reverse input order. -/
def Schedule.reversed (D : Type) : Schedule D :=
  { order := fun l => l.reverse, perm := fun l => List.reverse_perm l }

/-! ## `FindSignalModel::search` -/

/-- The loop of `std::upper_bound` (binary search): `first` and `len` are the
loop variables, the first argument bounds the number of iterations. -/
def upper_bound_loop {α : Type} (comp : α → Bool) (xs : List α) : Nat → Nat → Nat → Nat
  | 0, first, _ => first
  | fuel + 1, first, len =>
    if len = 0 then first
    else
      let half := len / 2
      let middle := first + half
      match xs[middle]? with
      | some e =>
        if comp e then upper_bound_loop comp xs fuel first half
        else upper_bound_loop comp xs fuel (middle + 1) (len - half - 1)
      | none => first

/-- The call `std::upper_bound(events.cbegin(), events.cend(), value, comp)`,
as the index of the returned iterator. -/
def upper_bound {α : Type} (xs : List α) (value : Nat) (comp : Nat → α → Bool) : Nat :=
  upper_bound_loop (comp value) xs xs.length 0 xs.length

/-- The call `std::find_if(first, events.cend(), pred)`: the first element at index
`first` or later on which `pred` holds, `none` for `events.cend()`. -/
def find_if {α : Type} (xs : List α) (first : Nat) (pred : α → Bool) : Option α :=
  (xs.drop first).find? pred

variable {D : Type}

/-- The body of the lambda that `search` maps over `prev_sigs`: `some c` when
it pushes `c` to `filtered_signals`, `none` when it pushes nothing.
`get_raw_value` is the decoder, declared outside `findsignal.*`. -/
def scanSignal (get_raw_value : List Nat → Nat → Signal D → D) (can : CanStream)
    (cmp : D → Bool) (s : SearchSignal D) : Option (SearchSignal D) :=
  let events := can.events s.id
  let first := upper_bound events s.mono_time (fun ts e => decide (ts < e.mono_time))
  match find_if events first (fun e => cmp (get_raw_value e.dat e.size s.sig)) with
  | some e =>
    some { id := s.id, mono_time := e.mono_time, sig := s.sig,
           values := s.values ++ [(e.mono_time, get_raw_value e.dat e.size s.sig)] }
  | none => none

/-- The generation a search reads:
`!histories.isEmpty() ? histories.back() : initial_signals`. -/
def prev_sigs (m : FindSignalModel D) : List (SearchSignal D) :=
  match m.histories.getLast? with
  | some g => g
  | none => m.initial_signals

/-- The method `FindSignalModel::search(cmp)`: the survivors of the generation
read are appended in the order of the schedule and the result is pushed on
`histories`. -/
def search (sched : Schedule D) (get_raw_value : List Nat → Nat → Signal D → D)
    (can : CanStream) (cmp : D → Bool) (m : FindSignalModel D) : FindSignalModel D :=
  let filtered_signals := sched.order ((prev_sigs m).filterMap (scanSignal get_raw_value can cmp))
  { filtered_signals := filtered_signals,
    initial_signals := m.initial_signals,
    histories := m.histories ++ [filtered_signals] }

/-! ## `FindSignalModel::undo` and `FindSignalModel::reset` -/

/-- The method `FindSignalModel::undo()`. -/
def undo (m : FindSignalModel D) : FindSignalModel D :=
  if m.histories.isEmpty then m
  else
    let histories := m.histories.dropLast
    { filtered_signals := if histories.isEmpty then [] else histories.getLast?.getD [],
      initial_signals := m.initial_signals,
      histories := histories }

/-- The method `FindSignalModel::reset()`. -/
def reset (_m : FindSignalModel D) : FindSignalModel D :=
  { filtered_signals := [], initial_signals := [], histories := [] }

/-! ## `FindSignalDlg::setInitialSignals` -/

/-- The values `lo, lo+1, …, hi` that a loop `for (int i = lo; i <= hi; ++i)`
visits, in order (none when `hi < lo`). -/
def intRange (lo hi : Int) : List Int :=
  (List.range (hi + 1 - lo).toNat).map (fun (k : Nat) => lo + (k : Int))

/-- Modelled from the spec: `updateSigSizeParamsFromRange` is declared outside
`findsignal.*`. By §4.2 the candidate emitted for the pair `(start, size)` has
layout `start_bit = start`, `size_bits = size`; the other fields are kept. -/
def updateSigSizeParamsFromRange (s : Signal D) (start_bit size : Int) : Signal D :=
  { s with start_bit := start_bit, size := size }

/-- The candidates the two inner loops of `setInitialSignals` push for one
entry `(id, msg)` of `last_msgs`. -/
def signalsForMessage (sig : Signal D) (min_size max_size : Int)
    (id : MessageId) (msg : CanData) : List (SearchSignal D) :=
  let total_size : Int := (msg.dat.length : Int) * 8
  (intRange min_size max_size).flatMap fun size =>
    (intRange 0 (total_size - size)).map fun start =>
      { id := id, mono_time := 0,
        sig := updateSigSizeParamsFromRange sig start size, values := [] }

/-- The method `FindSignalDlg::setInitialSignals()`: the arguments are the widget values
(`litter_endian`, `is_signed`, the parsed factor and offset, `min_size`,
`max_size`). -/
def setInitialSignals (can : CanStream) (little_endian is_signed : Bool) (factor offset : D)
    (min_size max_size : Int) (m : FindSignalModel D) : FindSignalModel D :=
  let sig : Signal D :=
    { start_bit := 0, size := 0, is_little_endian := little_endian,
      is_signed := is_signed, factor := factor, offset := offset }
  { m with
    initial_signals :=
      can.last_msgs.flatMap fun kv => signalsForMessage sig min_size max_size kv.1 kv.2 }

/-! ## Specification vocabulary -/

/-- The event `e` is the first one of `events`, in sequence order, that lies
strictly after `ts` and satisfies `pred`. -/
def IsFirstMatch (events : List CanEvent) (ts : Nat) (pred : CanEvent → Bool)
    (e : CanEvent) : Prop :=
  ∃ pre post, events = pre ++ e :: post ∧ ts < e.mono_time ∧ pred e = true ∧
    ∀ x ∈ pre, ¬ (ts < x.mono_time ∧ pred x = true)

/-- The sequence `events` is ordered by non-decreasing `mono_time`. -/
def TimeOrdered (events : List CanEvent) : Prop :=
  events.Pairwise (fun a b => a.mono_time ≤ b.mono_time)

instance (events : List CanEvent) : Decidable (TimeOrdered events) := by
  unfold TimeOrdered
  infer_instance

/-! ## A concrete log used to exercise the theorems -/

/-- An event with the given time stamp and payload. -/
def demoEvent (t : Nat) (dat : List Nat) : CanEvent :=
  { mono_time := t, dat := dat, size := dat.length }

/-- A log with two sources. Source 7 has four two-byte records, two of them
at the same time; source 9 has one one-byte record. -/
def demoStream : CanStream :=
  { events := fun id =>
      if id = 7 then
        [demoEvent 1 [0, 5], demoEvent 2 [0, 10], demoEvent 2 [0, 5], demoEvent 4 [0, 7]]
      else if id = 9 then [demoEvent 3 [5]]
      else [],
    last_msgs := [(7, { dat := [0, 7] }), (9, { dat := [5] })] }

/-- An example decoder over integer values: the byte that holds `start_bit`. -/
def demoDecode (dat : List Nat) (_size : Nat) (sig : Signal Int) : Int :=
  (dat.getD (sig.start_bit.toNat / 8) 0 : Nat)

/-- An example layout: eight bits starting at `start_bit`. -/
def demoSig (start_bit : Int) : Signal Int :=
  { start_bit := start_bit, size := 8, is_little_endian := false, is_signed := false,
    factor := 1, offset := 0 }

/-- An example candidate on source 7 with the given cursor and start bit. -/
def demoCandidate (cursor : Nat) (start_bit : Int) : SearchSignal Int :=
  { id := 7, mono_time := cursor, sig := demoSig start_bit, values := [] }

/-- An example model before the first search. -/
def demoModel : FindSignalModel Int :=
  { filtered_signals := [],
    initial_signals := [demoCandidate 0 0, demoCandidate 0 8, demoCandidate 1 8],
    histories := [] }

/-- The candidate count as the specification states it: the sum over sources
of the sum over `size` in `[min, max]` of `total_bits - size + 1`. -/
def statedCandidateCount (can : CanStream) (min_size max_size : Int) : Int :=
  (can.last_msgs.map fun kv =>
    ((intRange min_size max_size).map fun size =>
      (kv.2.dat.length : Int) * 8 - size + 1).sum).sum

/-- The candidate count with every term cut off at zero: a size that does not
fit into a source contributes nothing. -/
def fittingCandidateCount (can : CanStream) (min_size max_size : Int) : Int :=
  (can.last_msgs.map fun kv =>
    ((intRange min_size max_size).map fun size =>
      max 0 ((kv.2.dat.length : Int) * 8 - size + 1)).sum).sum

/-- A log with a single source whose last message has two bytes (16 bits). -/
def oneSourceStream : CanStream :=
  { events := fun _ => [demoEvent 1 [0, 5], demoEvent 2 [0, 10]],
    last_msgs := [(7, { dat := [0, 10] })] }

/-! ## Reachable model states -/

/-- The states of the model that the dialog can produce: the freshly
constructed model, followed by any sequence of `search`, `undo` and `reset`
calls and of `setInitialSignals` calls, which `FindSignalDlg::search` makes
only while `histories` is empty. The log may differ from call to call. -/
inductive Reachable (get_raw_value : List Nat → Nat → Signal D → D) :
    FindSignalModel D → Prop
  | fresh : Reachable get_raw_value (FindSignalModel.fresh D)
  | search (sched : Schedule D) (can : CanStream) (cmp : D → Bool) {m : FindSignalModel D} :
      Reachable get_raw_value m → Reachable get_raw_value (search sched get_raw_value can cmp m)
  | undo {m : FindSignalModel D} :
      Reachable get_raw_value m → Reachable get_raw_value (undo m)
  | reset {m : FindSignalModel D} :
      Reachable get_raw_value m → Reachable get_raw_value (reset m)
  | setInitialSignals (can : CanStream) (little_endian is_signed : Bool) (factor offset : D)
      (min_size max_size : Int) {m : FindSignalModel D} :
      m.histories = [] → Reachable get_raw_value m →
      Reachable get_raw_value
        (setInitialSignals can little_endian is_signed factor offset min_size max_size m)

/-- The example model after the generator ran on the example log with sizes
8 to 8 and one search for "equals 5" was made. -/
def demoSearched : FindSignalModel Int :=
  search (Schedule.sequential Int) demoDecode demoStream (fun v => v == 5)
    (setInitialSignals demoStream false false 1 0 8 8 (FindSignalModel.fresh Int))

/-! ## `FindSignalDlg::modelReset` -/

/-- The method `FindSignalModel::rowCount()`: `std::min(filtered_signals.size(), 200)`. -/
def rowCount (m : FindSignalModel D) : Nat :=
  min m.filtered_signals.length 200

/-- The widget states that `FindSignalDlg::modelReset` sets. -/
structure Controls where
  properties_group_enabled : Bool
  search_btn_find_next : Bool
  reset_btn_enabled : Bool
  undo_btn_enabled : Bool
  search_btn_enabled : Bool
deriving DecidableEq, Repr

/-- The method `FindSignalDlg::modelReset()`: the enablement it computes from
the model (`search_btn_find_next` stands for the button text "Find Next"). -/
def modelReset (m : FindSignalModel D) : Controls :=
  { properties_group_enabled := m.histories.isEmpty,
    search_btn_find_next := !m.histories.isEmpty,
    reset_btn_enabled := !m.histories.isEmpty,
    undo_btn_enabled := decide (m.histories.length > 1),
    search_btn_enabled := decide (rowCount m > 0) || m.histories.isEmpty }

/-! ## `FindSignalDlg::search` -/

/-- The items of `compare_cb` in the order `addItems` inserts them. -/
def compare_cb_items : List String :=
  ["=", ">", ">=", "!=", "<", "<=", "between"]

/-- The `switch` of `FindSignalDlg::search` over `compare_cb->currentIndex()`:
the predicate stored in `cmp`, `none` for the `nullptr` that stays when no
case applies. The comparisons of `double` are those of the ordered type `D`. -/
def compare_predicate [LinearOrder D] (index : Int) (v1 v2 : D) : Option (D → Bool) :=
  if index = 0 then some (fun v => decide (v = v1))
  else if index = 1 then some (fun v => decide (v > v1))
  else if index = 2 then some (fun v => decide (v ≥ v1))
  else if index = 3 then some (fun v => decide (v ≠ v1))
  else if index = 4 then some (fun v => decide (v < v1))
  else if index = 5 then some (fun v => decide (v ≤ v1))
  else if index = 6 then some (fun v => decide (v ≥ v1) && decide (v ≤ v2))
  else none

/-- The call `QString::toDouble()`: the number the text denotes, and `0.0`
when the text is not a number. The number grammar is the argument `parse`. -/
def toDouble [Zero D] (parse : String → Option D) (text : String) : D :=
  match parse text with
  | some v => v
  | none => 0

/-- The widget values that `FindSignalDlg::search` and `setInitialSignals`
read, together with the model. -/
structure FindSignalDlg (D : Type) where
  value1 : String
  value2 : String
  factor_edit : String
  offset_edit : String
  compare_cb : Int
  min_size : Int
  max_size : Int
  litter_endian : Bool
  is_signed : Bool
  model : FindSignalModel D

/-- Whether a search over the generation read calls its predicate at all: no
candidate has an event behind the position `std::upper_bound` returns, so
every `std::find_if` runs over an empty range. -/
def nothingToScan (can : CanStream) (m : FindSignalModel D) : Bool :=
  (prev_sigs m).all fun s =>
    ((can.events s.id).drop
      (upper_bound (can.events s.id) s.mono_time
        (fun ts e => decide (ts < e.mono_time)))).isEmpty

/-- The method `FindSignalDlg::search()` together with the `model->search(cmp)`
it posts to the event loop: the dialog after that call has run. The bound
texts are parsed without any check. When no case of the `switch` applies,
`cmp` is still `nullptr` and `model->search(nullptr)` runs all the same: with
nothing to scan the empty function is never called and an empty generation is
pushed; otherwise calling it throws, which is the result `none`. -/
def FindSignalDlg.search [LinearOrder D] [Zero D] (parse : String → Option D)
    (sched : Schedule D) (get_raw_value : List Nat → Nat → Signal D → D) (can : CanStream)
    (dlg : FindSignalDlg D) : Option (FindSignalDlg D) :=
  let model :=
    if dlg.model.histories.isEmpty then
      setInitialSignals can dlg.litter_endian dlg.is_signed
        (toDouble parse dlg.factor_edit) (toDouble parse dlg.offset_edit)
        dlg.min_size dlg.max_size dlg.model
    else dlg.model
  let v1 := toDouble parse dlg.value1
  let v2 := toDouble parse dlg.value2
  match compare_predicate dlg.compare_cb v1 v2 with
  | some cmp => some { dlg with model := FindSignal.search sched get_raw_value can cmp model }
  | none =>
    if nothingToScan can model then
      some { dlg with
        model := { filtered_signals := [],
                   initial_signals := model.initial_signals,
                   histories := model.histories ++ [[]] } }
    else none

/-! ## The decoder of the specification -/

/-- The bit of the record at position `pos`: with `little_endian` position
`8 * k + i` is bit `i` of byte `k` counted from the least significant bit,
otherwise it is bit `i` of byte `k` counted from the most significant bit.
Bytes beyond the record read as 0. -/
def bitAt (dat : List Nat) (little_endian : Bool) (pos : Nat) : Nat :=
  let byte := dat.getD (pos / 8) 0
  if little_endian then (byte / 2 ^ (pos % 8)) % 2 else (byte / 2 ^ (7 - pos % 8)) % 2

/-- The `size` bits from position `start` on, as an unsigned number: with
`little_endian` the first bit is the least significant one, otherwise the
most significant one. -/
def rawBits (dat : List Nat) (little_endian : Bool) (start size : Nat) : Nat :=
  ((List.range size).map fun j =>
    bitAt dat little_endian (start + j) * 2 ^ (if little_endian then j else size - 1 - j)).sum

/-- Modelled from the spec: `get_raw_value` is declared outside `findsignal.*`.
By §4.1 it extracts `size` bits starting at `start_bit` in the byte and bit
order of `is_little_endian`, reads them as a signed (two's complement) or
unsigned integer and returns `raw * factor + offset`; a layout that exceeds
the record yields the sentinel, taken to be 0. Values are integers here, on
which the arithmetic of `double` is exact. -/
def decode (dat : List Nat) (size : Nat) (sig : Signal Int) : Int :=
  if sig.start_bit < 0 ∨ sig.size < 0 ∨ sig.start_bit + sig.size > 8 * (size : Int) then 0
  else
    let raw := rawBits dat sig.is_little_endian sig.start_bit.toNat sig.size.toNat
    let value : Int :=
      if sig.is_signed ∧ 0 < sig.size ∧ 2 ^ (sig.size.toNat - 1) ≤ raw then
        (raw : Int) - 2 ^ sig.size.toNat
      else raw
    value * sig.factor + sig.offset

/-! ## More example data -/

/-- A log without sources. -/
def emptyStream : CanStream :=
  { events := fun _ => [], last_msgs := [] }

/-- An example number grammar: non-empty strings of decimal digits. -/
def demoParse (text : String) : Option Int :=
  match text.data with
  | [] => none
  | cs =>
    if cs.all Char.isDigit then
      some ((cs.foldl (fun n c => 10 * n + (c.toNat - 48)) 0 : Nat) : Int)
    else none

/-- An example dialog: comparison "=", both bound fields empty, sizes 8 to 8,
big-endian, unsigned, factor "1", offset "0", model freshly constructed. -/
def demoDlg : FindSignalDlg Int :=
  { value1 := "", value2 := "", factor_edit := "1", offset_edit := "0", compare_cb := 0,
    min_size := 8, max_size := 8, litter_endian := false, is_signed := false,
    model := FindSignalModel.fresh Int }

/-- The model of the scenario of the specification: the generator ran on the
one-source log with sizes 8 to 8, unsigned, big-endian, factor 1, offset 0. -/
def scenarioModel : FindSignalModel Int :=
  setInitialSignals oneSourceStream false false 1 0 8 8 (FindSignalModel.fresh Int)

/-- The states reached from `m0` by `search` and `undo` calls. -/
inductive SearchUndoReachable (get_raw_value : List Nat → Nat → Signal D → D)
    (m0 : FindSignalModel D) : FindSignalModel D → Prop
  | start : SearchUndoReachable get_raw_value m0 m0
  | search (sched : Schedule D) (can : CanStream) (cmp : D → Bool) {m : FindSignalModel D} :
      SearchUndoReachable get_raw_value m0 m →
      SearchUndoReachable get_raw_value m0 (search sched get_raw_value can cmp m)
  | undo {m : FindSignalModel D} :
      SearchUndoReachable get_raw_value m0 m → SearchUndoReachable get_raw_value m0 (undo m)

/-- The example model with its initial candidates in reverse order. -/
def demoModelReversed : FindSignalModel Int :=
  { demoModel with initial_signals := demoModel.initial_signals.reverse }

/-- The example model after a second search, for "equals 7". -/
def demoSearchedTwice : FindSignalModel Int :=
  search (Schedule.sequential Int) demoDecode demoStream (fun v => v == 7) demoSearched

/-! ## Binary search and the forward scan -/

/-- On a list split into a part where `comp` fails followed by a part where it
holds, the binary-search loop returns the length of the first part. -/
theorem upper_bound_loop_partition {α : Type} (comp : α → Bool) (l1 l2 : List α)
    (h1 : ∀ e ∈ l1, comp e = false) (h2 : ∀ e ∈ l2, comp e = true) :
    ∀ fuel first len, len ≤ fuel → first ≤ l1.length → l1.length ≤ first + len →
      first + len ≤ (l1 ++ l2).length →
      upper_bound_loop comp (l1 ++ l2) fuel first len = l1.length := by
  intro fuel
  induction fuel with
  | zero =>
    intro first len hf hlo hhi _
    simp only [upper_bound_loop]
    omega
  | succ fuel ih =>
    intro first len hf hlo hhi hlen
    rw [upper_bound_loop]
    by_cases h0 : len = 0
    · simp only [h0, if_true]
      omega
    · simp only [h0, if_false]
      have hhalf : len / 2 < len := Nat.div_lt_self (Nat.pos_of_ne_zero h0) (by decide)
      by_cases hm : first + len / 2 < l1.length
      · have hget : (l1 ++ l2)[first + len / 2]? = some (l1[first + len / 2]) := by
          rw [List.getElem?_append_left hm, List.getElem?_eq_getElem hm]
        have hc : comp (l1[first + len / 2]) = false := h1 _ (List.getElem_mem hm)
        simp only [hget, hc]
        exact ih _ _ (by omega) (by omega) (by omega) (by omega)
      · have hm' : l1.length ≤ first + len / 2 := Nat.le_of_not_lt hm
        have hlt : first + len / 2 - l1.length < l2.length := by
          rw [List.length_append] at hlen
          omega
        have hget : (l1 ++ l2)[first + len / 2]? = some (l2[first + len / 2 - l1.length]) := by
          rw [List.getElem?_append_right hm', List.getElem?_eq_getElem hlt]
        have hc : comp (l2[first + len / 2 - l1.length]) = true := h2 _ (List.getElem_mem hlt)
        simp only [hget, hc, if_true]
        exact ih _ _ (by omega) (by omega) (by omega) (by omega)

/-- The events of a time-ordered sequence split into those at or before `ts`
followed by those strictly after `ts`. -/
theorem sorted_split (ts : Nat) (events : List CanEvent)
    (hs : events.Pairwise (fun a b => a.mono_time ≤ b.mono_time)) :
    ∃ l1 l2, events = l1 ++ l2 ∧ (∀ e ∈ l1, e.mono_time ≤ ts) ∧
      (∀ e ∈ l2, ts < e.mono_time) := by
  induction events with
  | nil => exact ⟨[], [], rfl, by simp, by simp⟩
  | cons a t ih =>
    rw [List.pairwise_cons] at hs
    by_cases ha : ts < a.mono_time
    · refine ⟨[], a :: t, rfl, by simp, ?_⟩
      intro e he
      rcases List.mem_cons.mp he with rfl | he
      · exact ha
      · exact Nat.lt_of_lt_of_le ha (hs.1 e he)
    · obtain ⟨l1, l2, ht, hl1, hl2⟩ := ih hs.2
      refine ⟨a :: l1, l2, by rw [ht]; rfl, ?_, hl2⟩
      intro e he
      rcases List.mem_cons.mp he with rfl | he
      · exact Nat.le_of_not_lt ha
      · exact hl1 e he

/-- On a time-ordered sequence, `upper_bound` followed by `find_if` finds the
first event that is strictly after `ts` and satisfies `pred`. -/
theorem find_if_upper_bound (ts : Nat) (events : List CanEvent) (pred : CanEvent → Bool)
    (hs : events.Pairwise (fun a b => a.mono_time ≤ b.mono_time)) :
    find_if events (upper_bound events ts (fun ts e => decide (ts < e.mono_time))) pred
      = events.find? (fun e => decide (ts < e.mono_time) && pred e) := by
  obtain ⟨l1, l2, rfl, hl1, hl2⟩ := sorted_split ts events hs
  have hub : upper_bound (l1 ++ l2) ts (fun ts e => decide (ts < e.mono_time)) = l1.length := by
    unfold upper_bound
    apply upper_bound_loop_partition
    · intro e he
      simpa using hl1 e he
    · intro e he
      simpa using hl2 e he
    · exact Nat.le_refl _
    · exact Nat.zero_le _
    · simp
    · simp
  have hnone : l1.find? (fun e => decide (ts < e.mono_time) && pred e) = none := by
    rw [List.find?_eq_none]
    intro e he
    have := hl1 e he
    simp
    intro h
    omega
  have hcongr : ∀ l : List CanEvent, (∀ e ∈ l, ts < e.mono_time) →
      l.find? (fun e => decide (ts < e.mono_time) && pred e) = l.find? pred := by
    intro l
    induction l with
    | nil => intro _; rfl
    | cons a t ih =>
      intro h
      have ha : decide (ts < a.mono_time) = true := by simpa using h a (List.mem_cons_self a t)
      simp only [List.find?_cons, ha, Bool.true_and]
      rw [ih (fun e he => h e (List.mem_cons_of_mem a he))]
  rw [find_if, hub, List.drop_left, List.find?_append, hnone, hcongr l2 hl2]
  rfl

/-- The forward scan of one candidate on a time-ordered event sequence, as a
single linear search. -/
theorem scanSignal_eq (get_raw_value : List Nat → Nat → Signal D → D) (can : CanStream)
    (cmp : D → Bool) (s : SearchSignal D)
    (hs : TimeOrdered (can.events s.id)) :
    scanSignal get_raw_value can cmp s
      = ((can.events s.id).find? (fun e => decide (s.mono_time < e.mono_time)
            && cmp (get_raw_value e.dat e.size s.sig))).map
          (fun e => { id := s.id, mono_time := e.mono_time, sig := s.sig,
                      values := s.values ++ [(e.mono_time, get_raw_value e.dat e.size s.sig)] }) := by
  unfold scanSignal
  simp only []
  rw [find_if_upper_bound s.mono_time (can.events s.id) _ hs]
  cases (can.events s.id).find? (fun e => decide (s.mono_time < e.mono_time)
            && cmp (get_raw_value e.dat e.size s.sig)) <;> rfl

/-- Membership in the generation a search produces. -/
theorem mem_search_filtered (sched : Schedule D) (get_raw_value : List Nat → Nat → Signal D → D)
    (can : CanStream) (cmp : D → Bool) (m : FindSignalModel D) (c : SearchSignal D) :
    c ∈ (search sched get_raw_value can cmp m).filtered_signals
      ↔ ∃ s ∈ prev_sigs m, scanSignal get_raw_value can cmp s = some c := by
  unfold search
  simp only []
  rw [(sched.perm _).mem_iff, List.mem_filterMap]

/-- On a time-ordered sequence the scan of `s` pushes `c` exactly when `c` is
built from the first matching event after the cursor of `s`. -/
theorem scanSignal_eq_some_iff (get_raw_value : List Nat → Nat → Signal D → D) (can : CanStream)
    (cmp : D → Bool) (s c : SearchSignal D) (hs : TimeOrdered (can.events s.id)) :
    scanSignal get_raw_value can cmp s = some c
      ↔ ∃ e, IsFirstMatch (can.events s.id) s.mono_time
              (fun e => cmp (get_raw_value e.dat e.size s.sig)) e ∧
            c = { id := s.id, mono_time := e.mono_time, sig := s.sig,
                  values := s.values ++ [(e.mono_time, get_raw_value e.dat e.size s.sig)] } := by
  rw [scanSignal_eq get_raw_value can cmp s hs, Option.map_eq_some']
  constructor
  · rintro ⟨e, hfind, rfl⟩
    rw [List.find?_eq_some] at hfind
    obtain ⟨hp, pre, post, hev, hpre⟩ := hfind
    simp only [Bool.and_eq_true, decide_eq_true_eq] at hp
    refine ⟨e, ⟨pre, post, hev, hp.1, hp.2, ?_⟩, rfl⟩
    intro x hx hcon
    have := hpre x hx
    simp [hcon.1, hcon.2] at this
  · rintro ⟨e, ⟨pre, post, hev, hlt, hp, hpre⟩, rfl⟩
    refine ⟨e, ?_, rfl⟩
    rw [List.find?_eq_some]
    refine ⟨by simp [hlt, hp], pre, post, hev, ?_⟩
    intro x hx
    have := hpre x hx
    simp only [Bool.not_eq_true', Bool.and_eq_false_iff, decide_eq_false_iff_not]
    by_cases h : s.mono_time < x.mono_time
    · right
      simpa [h] using this
    · exact Or.inl h

/-- A first match exists exactly when some event after the cursor matches. -/
theorem exists_isFirstMatch_iff (events : List CanEvent) (ts : Nat) (pred : CanEvent → Bool) :
    (∃ e, IsFirstMatch events ts pred e) ↔ ∃ e ∈ events, ts < e.mono_time ∧ pred e = true := by
  constructor
  · rintro ⟨e, pre, post, hev, hlt, hp, _⟩
    exact ⟨e, by rw [hev]; simp, hlt, hp⟩
  · rintro ⟨e, he, hlt, hp⟩
    have hsome : (events.find? (fun e => decide (ts < e.mono_time) && pred e)).isSome = true := by
      rw [List.find?_isSome]
      exact ⟨e, he, by simp [hlt, hp]⟩
    obtain ⟨b, hb⟩ := Option.isSome_iff_exists.mp hsome
    rw [List.find?_eq_some] at hb
    obtain ⟨hpb, pre, post, hev, hpre⟩ := hb
    simp only [Bool.and_eq_true, decide_eq_true_eq] at hpb
    refine ⟨b, pre, post, hev, hpb.1, hpb.2, ?_⟩
    intro x hx hcon
    have := hpre x hx
    simp [hcon.1, hcon.2] at this

/-- C2. When the scan of a candidate `s` of the generation that `search`
reads (source time-ordered) pushes `c`, then `c` is in the produced
generation, has the id and sig of `s`, its cursor is the time of the first
event in sequence order among those strictly after the cursor of `s` on which
the predicate holds, and its trail is the trail of `s` followed by exactly one
entry holding that event's time and decoded value. -/
theorem search_emits_first_match (sched : Schedule D)
    (get_raw_value : List Nat → Nat → Signal D → D) (can : CanStream) (cmp : D → Bool)
    (m : FindSignalModel D) (s c : SearchSignal D)
    (hmem : s ∈ prev_sigs m) (hs : TimeOrdered (can.events s.id))
    (hc : scanSignal get_raw_value can cmp s = some c) :
    c ∈ (search sched get_raw_value can cmp m).filtered_signals
    ∧ c.id = s.id ∧ c.sig = s.sig
    ∧ ∃ e, IsFirstMatch (can.events s.id) s.mono_time
              (fun e => cmp (get_raw_value e.dat e.size s.sig)) e
          ∧ c.mono_time = e.mono_time
          ∧ c.values = s.values ++ [(e.mono_time, get_raw_value e.dat e.size s.sig)] := by
  obtain ⟨e, he, rfl⟩ := (scanSignal_eq_some_iff get_raw_value can cmp s c hs).mp hc
  exact ⟨(mem_search_filtered sched get_raw_value can cmp m _).mpr ⟨s, hmem, hc⟩,
    rfl, rfl, e, he, rfl, rfl⟩

/-- C2 at the candidate with cursor 1 and start bit 8 of the example model:
the events at times 1 and 2 that precede the match are skipped. -/
theorem search_emits_first_match_witness :
    (demoCandidate 1 8 ∈ prev_sigs demoModel
      ∧ TimeOrdered (demoStream.events (demoCandidate 1 8).id)
      ∧ scanSignal demoDecode demoStream (fun v => v == 5) (demoCandidate 1 8)
          = some { id := 7, mono_time := 2, sig := demoSig 8, values := [(2, 5)] })
    ∧ (({ id := 7, mono_time := 2, sig := demoSig 8, values := [(2, 5)] } : SearchSignal Int)
          ∈ (search (Schedule.sequential Int) demoDecode demoStream (fun v => v == 5)
              demoModel).filtered_signals
      ∧ ({ id := 7, mono_time := 2, sig := demoSig 8, values := [(2, 5)] }
            : SearchSignal Int).id = (demoCandidate 1 8).id
      ∧ ({ id := 7, mono_time := 2, sig := demoSig 8, values := [(2, 5)] }
            : SearchSignal Int).sig = (demoCandidate 1 8).sig
      ∧ ∃ e, IsFirstMatch (demoStream.events (demoCandidate 1 8).id)
                (demoCandidate 1 8).mono_time
                (fun e => (fun v => v == 5) (demoDecode e.dat e.size (demoCandidate 1 8).sig)) e
            ∧ ({ id := 7, mono_time := 2, sig := demoSig 8, values := [(2, 5)] }
                  : SearchSignal Int).mono_time = e.mono_time
            ∧ ({ id := 7, mono_time := 2, sig := demoSig 8, values := [(2, 5)] }
                  : SearchSignal Int).values
                = (demoCandidate 1 8).values
                    ++ [(e.mono_time, demoDecode e.dat e.size (demoCandidate 1 8).sig)]) :=
  ⟨⟨by decide, by decide, by decide⟩,
    search_emits_first_match (Schedule.sequential Int) demoDecode demoStream (fun v => v == 5)
      demoModel (demoCandidate 1 8) _ (by decide) (by decide) (by decide)⟩

/-- C3. When the scan of a candidate `s` of the generation that `search`
reads (source time-ordered) pushes `c`, the cursor of `c` is strictly greater
than the cursor of `s`; an event whose time equals the cursor of `s` is not
the reported match: neither the new cursor nor the appended trail entry comes
from it. -/
theorem search_cursor_strictly_increases (sched : Schedule D)
    (get_raw_value : List Nat → Nat → Signal D → D) (can : CanStream) (cmp : D → Bool)
    (m : FindSignalModel D) (s c : SearchSignal D)
    (hmem : s ∈ prev_sigs m) (hs : TimeOrdered (can.events s.id))
    (hc : scanSignal get_raw_value can cmp s = some c) :
    c ∈ (search sched get_raw_value can cmp m).filtered_signals
    ∧ s.mono_time < c.mono_time
    ∧ ∀ e ∈ can.events s.id, e.mono_time = s.mono_time →
        c.mono_time ≠ e.mono_time
        ∧ c.values ≠ s.values ++ [(e.mono_time, get_raw_value e.dat e.size s.sig)] := by
  obtain ⟨e, ⟨pre, post, hev, hlt, hp, hpre⟩, rfl⟩ :=
    (scanSignal_eq_some_iff get_raw_value can cmp s c hs).mp hc
  refine ⟨(mem_search_filtered sched get_raw_value can cmp m _).mpr ⟨s, hmem, hc⟩, hlt, ?_⟩
  intro x _ hx
  refine ⟨?_, ?_⟩
  · show e.mono_time ≠ x.mono_time
    omega
  · intro h
    have h1 := List.append_cancel_left h
    simp only [List.cons.injEq, Prod.mk.injEq, and_true] at h1
    omega

/-- C3 at the candidate with cursor 1 and start bit 8 of the example model:
the event at time 1 decodes to 5 but is not reported, the new cursor is 2. -/
theorem search_cursor_strictly_increases_witness :
    (demoCandidate 1 8 ∈ prev_sigs demoModel
      ∧ TimeOrdered (demoStream.events (demoCandidate 1 8).id)
      ∧ scanSignal demoDecode demoStream (fun v => v == 5) (demoCandidate 1 8)
          = some { id := 7, mono_time := 2, sig := demoSig 8, values := [(2, 5)] })
    ∧ (({ id := 7, mono_time := 2, sig := demoSig 8, values := [(2, 5)] } : SearchSignal Int)
          ∈ (search (Schedule.reversed Int) demoDecode demoStream (fun v => v == 5)
              demoModel).filtered_signals
      ∧ (demoCandidate 1 8).mono_time
          < ({ id := 7, mono_time := 2, sig := demoSig 8, values := [(2, 5)] }
                : SearchSignal Int).mono_time
      ∧ ∀ e ∈ demoStream.events (demoCandidate 1 8).id,
          e.mono_time = (demoCandidate 1 8).mono_time →
            ({ id := 7, mono_time := 2, sig := demoSig 8, values := [(2, 5)] }
                : SearchSignal Int).mono_time ≠ e.mono_time
            ∧ ({ id := 7, mono_time := 2, sig := demoSig 8, values := [(2, 5)] }
                : SearchSignal Int).values
                ≠ (demoCandidate 1 8).values
                    ++ [(e.mono_time, demoDecode e.dat e.size (demoCandidate 1 8).sig)]) :=
  ⟨⟨by decide, by decide, by decide⟩,
    search_cursor_strictly_increases (Schedule.reversed Int) demoDecode demoStream
      (fun v => v == 5) demoModel (demoCandidate 1 8) _ (by decide) (by decide) (by decide)⟩

/-- With an empty history a search reads `initial_signals`. -/
theorem prev_sigs_of_histories_nil (m : FindSignalModel D) (hh : m.histories = []) :
    prev_sigs m = m.initial_signals := by
  simp [prev_sigs, hh]

/-- After a search the next search reads the generation just pushed. -/
theorem prev_sigs_search (sched : Schedule D) (get_raw_value : List Nat → Nat → Signal D → D)
    (can : CanStream) (cmp : D → Bool) (m : FindSignalModel D) :
    prev_sigs (search sched get_raw_value can cmp m)
      = (search sched get_raw_value can cmp m).filtered_signals := by
  simp [prev_sigs, search]

/-- The scan of a candidate given by its fields, on a time-ordered source. -/
theorem scanSignal_mk_eq_some_iff (get_raw_value : List Nat → Nat → Signal D → D)
    (can : CanStream) (cmp : D → Bool) (id : MessageId) (ts : Nat) (sig : Signal D)
    (values : List (Nat × D)) (c : SearchSignal D) (hs : TimeOrdered (can.events id)) :
    scanSignal get_raw_value can cmp
        { id := id, mono_time := ts, sig := sig, values := values } = some c
      ↔ ∃ e, IsFirstMatch (can.events id) ts (fun e => cmp (get_raw_value e.dat e.size sig)) e
            ∧ c = { id := id, mono_time := e.mono_time, sig := sig,
                    values := values ++ [(e.mono_time, get_raw_value e.dat e.size sig)] } :=
  scanSignal_eq_some_iff get_raw_value can cmp
    { id := id, mono_time := ts, sig := sig, values := values } c hs

/-- C4. Starting from an empty history with initial generation
`m.initial_signals` (sources time-ordered), `search p1` then `search p2`:
the second search reads the generation pushed by the first one; the current
generation consists exactly of the candidates built from some initial `s`
whose first `p1` match after its cursor is `e1` and whose first `p2` match
strictly after the time of `e1` is `e2`, with cursor the time of `e2` and the
two matches appended to the trail in that order; an initial `s` has such a
survivor exactly when `p1` has a first match `e1` and `p2` matches on some
event strictly after the time of `e1`; with empty initial trails every
survivor has a trail of two entries. -/
theorem search_twice_and_semantics (sched1 sched2 : Schedule D)
    (get_raw_value : List Nat → Nat → Signal D → D) (can : CanStream) (p1 p2 : D → Bool)
    (m : FindSignalModel D) (hh : m.histories = [])
    (hs : ∀ s ∈ m.initial_signals, TimeOrdered (can.events s.id)) :
    prev_sigs (search sched1 get_raw_value can p1 m)
        = (search sched1 get_raw_value can p1 m).filtered_signals
    ∧ (search sched2 get_raw_value can p2 (search sched1 get_raw_value can p1 m)).histories
        = [(search sched1 get_raw_value can p1 m).filtered_signals,
           (search sched2 get_raw_value can p2
              (search sched1 get_raw_value can p1 m)).filtered_signals]
    ∧ (∀ c2, c2 ∈ (search sched2 get_raw_value can p2
                    (search sched1 get_raw_value can p1 m)).filtered_signals
        ↔ ∃ s ∈ m.initial_signals, ∃ e1 e2,
            IsFirstMatch (can.events s.id) s.mono_time
              (fun e => p1 (get_raw_value e.dat e.size s.sig)) e1
            ∧ IsFirstMatch (can.events s.id) e1.mono_time
              (fun e => p2 (get_raw_value e.dat e.size s.sig)) e2
            ∧ c2 = { id := s.id, mono_time := e2.mono_time, sig := s.sig,
                     values := s.values ++
                       [(e1.mono_time, get_raw_value e1.dat e1.size s.sig),
                        (e2.mono_time, get_raw_value e2.dat e2.size s.sig)] })
    ∧ (∀ s ∈ m.initial_signals,
        (∃ c1 c2, scanSignal get_raw_value can p1 s = some c1
            ∧ scanSignal get_raw_value can p2 c1 = some c2
            ∧ c2 ∈ (search sched2 get_raw_value can p2
                      (search sched1 get_raw_value can p1 m)).filtered_signals)
        ↔ ∃ e1, IsFirstMatch (can.events s.id) s.mono_time
                  (fun e => p1 (get_raw_value e.dat e.size s.sig)) e1
              ∧ ∃ e2 ∈ can.events s.id, e1.mono_time < e2.mono_time
                  ∧ p2 (get_raw_value e2.dat e2.size s.sig) = true)
    ∧ ((∀ s ∈ m.initial_signals, s.values = []) →
        ∀ c2 ∈ (search sched2 get_raw_value can p2
                  (search sched1 get_raw_value can p1 m)).filtered_signals,
          c2.values.length = 2) := by
  have hmem2 : ∀ c2, c2 ∈ (search sched2 get_raw_value can p2
                    (search sched1 get_raw_value can p1 m)).filtered_signals
        ↔ ∃ s ∈ m.initial_signals, ∃ c1, scanSignal get_raw_value can p1 s = some c1
            ∧ scanSignal get_raw_value can p2 c1 = some c2 := by
    intro c2
    rw [mem_search_filtered, prev_sigs_search]
    constructor
    · rintro ⟨c1, hc1, hc2⟩
      rw [mem_search_filtered, prev_sigs_of_histories_nil m hh] at hc1
      obtain ⟨s, hsm, hsc⟩ := hc1
      exact ⟨s, hsm, c1, hsc, hc2⟩
    · rintro ⟨s, hsm, c1, hsc, hc2⟩
      refine ⟨c1, ?_, hc2⟩
      rw [mem_search_filtered, prev_sigs_of_histories_nil m hh]
      exact ⟨s, hsm, hsc⟩
  have hchar : ∀ c2, c2 ∈ (search sched2 get_raw_value can p2
                    (search sched1 get_raw_value can p1 m)).filtered_signals
        ↔ ∃ s ∈ m.initial_signals, ∃ e1 e2,
            IsFirstMatch (can.events s.id) s.mono_time
              (fun e => p1 (get_raw_value e.dat e.size s.sig)) e1
            ∧ IsFirstMatch (can.events s.id) e1.mono_time
              (fun e => p2 (get_raw_value e.dat e.size s.sig)) e2
            ∧ c2 = { id := s.id, mono_time := e2.mono_time, sig := s.sig,
                     values := s.values ++
                       [(e1.mono_time, get_raw_value e1.dat e1.size s.sig),
                        (e2.mono_time, get_raw_value e2.dat e2.size s.sig)] } := by
    intro c2
    rw [hmem2]
    constructor
    · rintro ⟨s, hsm, c1, hsc, hc2⟩
      obtain ⟨e1, he1, rfl⟩ :=
        (scanSignal_eq_some_iff get_raw_value can p1 s c1 (hs s hsm)).mp hsc
      obtain ⟨e2, he2, rfl⟩ :=
        (scanSignal_mk_eq_some_iff get_raw_value can p2 _ _ _ _ c2 (hs s hsm)).mp hc2
      exact ⟨s, hsm, e1, e2, he1, he2, by simp⟩
    · rintro ⟨s, hsm, e1, e2, he1, he2, rfl⟩
      refine ⟨s, hsm, _, (scanSignal_eq_some_iff get_raw_value can p1 s _ (hs s hsm)).mpr
        ⟨e1, he1, rfl⟩, ?_⟩
      exact (scanSignal_mk_eq_some_iff get_raw_value can p2 _ _ _ _ _ (hs s hsm)).mpr
        ⟨e2, he2, by simp⟩
  refine ⟨prev_sigs_search sched1 get_raw_value can p1 m, ?_, hchar, ?_, ?_⟩
  · simp [search, hh]
  · intro s hsm
    constructor
    · rintro ⟨c1, c2, hsc, hc2, _⟩
      obtain ⟨e1, he1, rfl⟩ :=
        (scanSignal_eq_some_iff get_raw_value can p1 s c1 (hs s hsm)).mp hsc
      obtain ⟨e2, he2, _⟩ :=
        (scanSignal_mk_eq_some_iff get_raw_value can p2 _ _ _ _ c2 (hs s hsm)).mp hc2
      exact ⟨e1, he1, (exists_isFirstMatch_iff (can.events s.id) e1.mono_time
        (fun e => p2 (get_raw_value e.dat e.size s.sig))).mp ⟨e2, he2⟩⟩
    · rintro ⟨e1, he1, hex⟩
      obtain ⟨e2, he2⟩ := (exists_isFirstMatch_iff (can.events s.id) e1.mono_time
        (fun e => p2 (get_raw_value e.dat e.size s.sig))).mpr hex
      have hsc := (scanSignal_eq_some_iff get_raw_value can p1 s _ (hs s hsm)).mpr
        ⟨e1, he1, rfl⟩
      have hc2 := (scanSignal_mk_eq_some_iff get_raw_value can p2 s.id e1.mono_time s.sig
        (s.values ++ [(e1.mono_time, get_raw_value e1.dat e1.size s.sig)])
        _ (hs s hsm)).mpr ⟨e2, he2, rfl⟩
      exact ⟨_, _, hsc, hc2, (hmem2 _).mpr ⟨s, hsm, _, hsc, hc2⟩⟩
  · intro hnil c2 hc2
    obtain ⟨s, hsm, e1, e2, _, _, rfl⟩ := (hchar c2).mp hc2
    simp [hnil s hsm]

/-- C4 on the example model with "equals 5" followed by "equals 7": the
history is empty, every source of an initial candidate is time-ordered. -/
theorem search_twice_and_semantics_witness :
    (demoModel.histories = []
      ∧ ∀ s ∈ demoModel.initial_signals, TimeOrdered (demoStream.events s.id))
    ∧ prev_sigs (search (Schedule.reversed Int) demoDecode demoStream (fun v => v == 5)
          demoModel)
        = (search (Schedule.reversed Int) demoDecode demoStream (fun v => v == 5)
            demoModel).filtered_signals
    ∧ (∀ c2, c2 ∈ (search (Schedule.sequential Int) demoDecode demoStream (fun v => v == 7)
                    (search (Schedule.reversed Int) demoDecode demoStream (fun v => v == 5)
                      demoModel)).filtered_signals
        ↔ ∃ s ∈ demoModel.initial_signals, ∃ e1 e2,
            IsFirstMatch (demoStream.events s.id) s.mono_time
              (fun e => (fun v => v == 5) (demoDecode e.dat e.size s.sig)) e1
            ∧ IsFirstMatch (demoStream.events s.id) e1.mono_time
              (fun e => (fun v => v == 7) (demoDecode e.dat e.size s.sig)) e2
            ∧ c2 = { id := s.id, mono_time := e2.mono_time, sig := s.sig,
                     values := s.values ++
                       [(e1.mono_time, demoDecode e1.dat e1.size s.sig),
                        (e2.mono_time, demoDecode e2.dat e2.size s.sig)] })
    ∧ (search (Schedule.sequential Int) demoDecode demoStream (fun v => v == 7)
          (search (Schedule.reversed Int) demoDecode demoStream (fun v => v == 5)
            demoModel)).filtered_signals
        = [{ id := 7, mono_time := 4, sig := demoSig 8, values := [(2, 5), (4, 7)] },
           { id := 7, mono_time := 4, sig := demoSig 8, values := [(1, 5), (4, 7)] }] :=
  ⟨⟨by decide, by decide⟩,
    (search_twice_and_semantics (Schedule.reversed Int) (Schedule.sequential Int) demoDecode
      demoStream (fun v => v == 5) (fun v => v == 7) demoModel (by decide) (by decide)).1,
    (search_twice_and_semantics (Schedule.reversed Int) (Schedule.sequential Int) demoDecode
      demoStream (fun v => v == 5) (fun v => v == 7) demoModel (by decide) (by decide)).2.2.1,
    by decide⟩

/-! ## The generator -/

/-- Membership in the values visited by a counting loop. -/
theorem mem_intRange (lo hi x : Int) : x ∈ intRange lo hi ↔ lo ≤ x ∧ x ≤ hi := by
  unfold intRange
  rw [List.mem_map]
  constructor
  · rintro ⟨k, hk, rfl⟩
    rw [List.mem_range] at hk
    omega
  · rintro ⟨h1, h2⟩
    refine ⟨(x - lo).toNat, ?_, ?_⟩
    · rw [List.mem_range]
      omega
    · omega

/-- A counting loop visits `max 0 (hi + 1 - lo)` values. -/
theorem length_intRange (lo hi : Int) : ((intRange lo hi).length : Int) = max 0 (hi + 1 - lo) := by
  unfold intRange
  rw [List.length_map, List.length_range]
  omega

/-- A counting loop visits no value twice. -/
theorem nodup_intRange (lo hi : Int) : (intRange lo hi).Nodup := by
  unfold intRange
  refine (List.nodup_range _).map ?_
  intro a b h
  simp only at h
  omega

/-- Membership in the candidates generated for one source. -/
theorem mem_signalsForMessage (sig : Signal D) (min_size max_size : Int) (id : MessageId)
    (msg : CanData) (c : SearchSignal D) :
    c ∈ signalsForMessage sig min_size max_size id msg
      ↔ ∃ size start, min_size ≤ size ∧ size ≤ max_size ∧ 0 ≤ start
          ∧ start ≤ (msg.dat.length : Int) * 8 - size
          ∧ c = { id := id, mono_time := 0,
                  sig := { sig with start_bit := start, size := size }, values := [] } := by
  unfold signalsForMessage updateSigSizeParamsFromRange
  simp only [List.mem_flatMap, List.mem_map, mem_intRange]
  constructor
  · rintro ⟨size, ⟨h1, h2⟩, start, ⟨h3, h4⟩, rfl⟩
    exact ⟨size, start, h1, h2, h3, h4, rfl⟩
  · rintro ⟨size, start, h1, h2, h3, h4, rfl⟩
    exact ⟨size, ⟨h1, h2⟩, start, ⟨h3, h4⟩, rfl⟩

/-- Membership in the generation written by `setInitialSignals`. -/
theorem mem_setInitialSignals (can : CanStream) (little_endian is_signed : Bool)
    (factor offset : D) (min_size max_size : Int) (m : FindSignalModel D) (c : SearchSignal D) :
    c ∈ (setInitialSignals can little_endian is_signed factor offset min_size max_size
          m).initial_signals
      ↔ ∃ kv ∈ can.last_msgs, ∃ size start, min_size ≤ size ∧ size ≤ max_size ∧ 0 ≤ start
          ∧ start ≤ (kv.2.dat.length : Int) * 8 - size
          ∧ c = { id := kv.1, mono_time := 0,
                  sig := { start_bit := start, size := size, is_little_endian := little_endian,
                           is_signed := is_signed, factor := factor, offset := offset },
                  values := [] } := by
  unfold setInitialSignals
  simp only [List.mem_flatMap, mem_signalsForMessage]

/-- The candidates generated for one source are pairwise different. -/
theorem nodup_signalsForMessage (sig : Signal D) (min_size max_size : Int) (id : MessageId)
    (msg : CanData) : (signalsForMessage sig min_size max_size id msg).Nodup := by
  unfold signalsForMessage
  rw [List.nodup_flatMap]
  refine ⟨?_, ?_⟩
  · intro size _
    refine (nodup_intRange _ _).map ?_
    intro a b h
    have := congrArg (fun c : SearchSignal D => c.sig.start_bit) h
    simpa [updateSigSizeParamsFromRange] using this
  · refine (nodup_intRange min_size max_size).imp ?_
    intro a b hab c hca hcb
    simp only [List.mem_map] at hca hcb
    obtain ⟨_, _, rfl⟩ := hca
    obtain ⟨_, _, h⟩ := hcb
    have := congrArg (fun c : SearchSignal D => c.sig.size) h
    simp only [updateSigSizeParamsFromRange] at this
    exact hab this.symm

/-- The number of candidates generated for one source. -/
theorem length_signalsForMessage (sig : Signal D) (min_size max_size : Int) (id : MessageId)
    (msg : CanData) :
    ((signalsForMessage sig min_size max_size id msg).length : Int)
      = ((intRange min_size max_size).map fun size =>
          max 0 ((msg.dat.length : Int) * 8 - size + 1)).sum := by
  unfold signalsForMessage
  simp only []
  induction intRange min_size max_size with
  | nil => rfl
  | cons size t ih =>
    rw [List.flatMap_cons, List.length_append, Nat.cast_add, ih, List.map_cons, List.sum_cons,
      List.length_map, length_intRange]
    congr 1
    omega

/-- The number of candidates written by `setInitialSignals`. -/
theorem length_setInitialSignals (can : CanStream) (little_endian is_signed : Bool)
    (factor offset : D) (min_size max_size : Int) (m : FindSignalModel D) :
    (((setInitialSignals can little_endian is_signed factor offset min_size max_size
        m).initial_signals.length : Nat) : Int)
      = fittingCandidateCount can min_size max_size := by
  unfold setInitialSignals fittingCandidateCount
  simp only []
  induction can.last_msgs with
  | nil => rfl
  | cons kv t ih =>
    rw [List.flatMap_cons, List.length_append, Nat.cast_add, ih, List.map_cons, List.sum_cons,
      length_signalsForMessage]

/-- C5. Layout bound: every candidate that `setInitialSignals` writes into
`initial_signals` belongs to an entry of `last_msgs` with its id, and its
`start_bit + size` is at most eight times the byte length of that entry's
message; its `start_bit` is not negative. -/
theorem setInitialSignals_layout_bound (can : CanStream) (little_endian is_signed : Bool)
    (factor offset : D) (min_size max_size : Int) (m : FindSignalModel D) (c : SearchSignal D)
    (hc : c ∈ (setInitialSignals can little_endian is_signed factor offset min_size max_size
                m).initial_signals) :
    ∃ msg, (c.id, msg) ∈ can.last_msgs
      ∧ 0 ≤ c.sig.start_bit
      ∧ c.sig.start_bit + c.sig.size ≤ 8 * (msg.dat.length : Int) := by
  rw [mem_setInitialSignals] at hc
  obtain ⟨kv, hkv, size, start, _, _, h0, hle, rfl⟩ := hc
  refine ⟨kv.2, hkv, h0, ?_⟩
  show start + size ≤ 8 * (kv.2.dat.length : Int)
  omega

/-- C5 at the last candidate generated for the two-byte source of the example
log with sizes 7 to 8: start bit 8, size 8. -/
theorem setInitialSignals_layout_bound_witness :
    (demoCandidate 0 8 ∈ (setInitialSignals demoStream false false (1 : Int) 0 7 8
                            demoModel).initial_signals)
    ∧ ∃ msg, ((demoCandidate 0 8).id, msg) ∈ demoStream.last_msgs
        ∧ 0 ≤ (demoCandidate 0 8).sig.start_bit
        ∧ (demoCandidate 0 8).sig.start_bit + (demoCandidate 0 8).sig.size
            ≤ 8 * (msg.dat.length : Int) :=
  ⟨by decide,
    setInitialSignals_layout_bound demoStream false false (1 : Int) 0 7 8 demoModel
      (demoCandidate 0 8) (by decide)⟩

/-- C6. Generator enumeration, for a `last_msgs` with pairwise different keys:
a candidate is in the `initial_signals` written by `setInitialSignals` exactly
when it is the candidate of a triple (entry of `last_msgs`, `size` in
`[min, max]`, `start` in `[0, total_bits - size]`), with cursor 0, empty trail
and the configured endianness, signedness, factor and offset; no candidate
occurs twice; the previous content of `initial_signals` has no influence. -/
theorem setInitialSignals_enumeration (can : CanStream) (little_endian is_signed : Bool)
    (factor offset : D) (min_size max_size : Int) (m : FindSignalModel D)
    (hkeys : (can.last_msgs.map Prod.fst).Nodup) :
    (∀ c, c ∈ (setInitialSignals can little_endian is_signed factor offset min_size max_size
                m).initial_signals
        ↔ ∃ kv ∈ can.last_msgs, ∃ size start, min_size ≤ size ∧ size ≤ max_size ∧ 0 ≤ start
            ∧ start ≤ (kv.2.dat.length : Int) * 8 - size
            ∧ c = { id := kv.1, mono_time := 0,
                    sig := { start_bit := start, size := size,
                             is_little_endian := little_endian, is_signed := is_signed,
                             factor := factor, offset := offset },
                    values := [] })
    ∧ (setInitialSignals can little_endian is_signed factor offset min_size max_size
        m).initial_signals.Nodup
    ∧ (setInitialSignals can little_endian is_signed factor offset min_size max_size
        m).initial_signals
        = (setInitialSignals can little_endian is_signed factor offset min_size max_size
            (FindSignalModel.fresh D)).initial_signals
    ∧ (∀ c ∈ (setInitialSignals can little_endian is_signed factor offset min_size max_size
                m).initial_signals,
        c.mono_time = 0 ∧ c.values = [] ∧ c.sig.is_little_endian = little_endian
          ∧ c.sig.is_signed = is_signed ∧ c.sig.factor = factor ∧ c.sig.offset = offset) := by
  refine ⟨fun c => mem_setInitialSignals can little_endian is_signed factor offset
    min_size max_size m c, ?_, rfl, ?_⟩
  · unfold setInitialSignals
    simp only []
    rw [List.nodup_flatMap]
    refine ⟨fun kv _ => nodup_signalsForMessage _ _ _ _ _, ?_⟩
    have hk : can.last_msgs.Pairwise (fun a b => a.1 ≠ b.1) := by
      unfold List.Nodup at hkeys
      rwa [List.pairwise_map] at hkeys
    refine hk.imp ?_
    intro a b hab c hca hcb
    rw [mem_signalsForMessage] at hca hcb
    obtain ⟨_, _, _, _, _, _, rfl⟩ := hca
    obtain ⟨_, _, _, _, _, _, h⟩ := hcb
    exact hab (congrArg (fun c : SearchSignal D => c.id) h)
  · intro c hc
    rw [mem_setInitialSignals] at hc
    obtain ⟨kv, _, size, start, _, _, _, _, rfl⟩ := hc
    exact ⟨rfl, rfl, rfl, rfl, rfl, rfl⟩

/-- C6 on the example log with sizes 7 to 8: the keys 7 and 9 differ, the
membership characterisation and the absence of duplicates follow. -/
theorem setInitialSignals_enumeration_witness :
    (demoStream.last_msgs.map Prod.fst).Nodup
    ∧ (∀ c, c ∈ (setInitialSignals demoStream false true (1 : Int) 0 7 8
                  demoModel).initial_signals
        ↔ ∃ kv ∈ demoStream.last_msgs, ∃ size start, (7 : Int) ≤ size ∧ size ≤ 8 ∧ 0 ≤ start
            ∧ start ≤ (kv.2.dat.length : Int) * 8 - size
            ∧ c = { id := kv.1, mono_time := 0,
                    sig := { start_bit := start, size := size,
                             is_little_endian := false, is_signed := true,
                             factor := 1, offset := 0 },
                    values := [] })
    ∧ (setInitialSignals demoStream false true (1 : Int) 0 7 8 demoModel).initial_signals.Nodup
    ∧ (setInitialSignals demoStream false true (1 : Int) 0 7 8 demoModel).initial_signals.length
        = 22 :=
  ⟨by decide,
    (setInitialSignals_enumeration demoStream false true (1 : Int) 0 7 8 demoModel
      (by decide)).1,
    (setInitialSignals_enumeration demoStream false true (1 : Int) 0 7 8 demoModel
      (by decide)).2.1,
    by decide⟩

/-- C7 as stated fails: on the example log with size range `[10, 10]` the
generator writes 7 candidates (all on the 16-bit source, none on the 8-bit
source), while the stated sum is `(16 - 10 + 1) + (8 - 10 + 1) = 6`. -/
theorem setInitialSignals_count_stated_fails :
    (setInitialSignals demoStream false false (1 : Int) 0 10 10
        (FindSignalModel.fresh Int)).initial_signals.length = 7
    ∧ statedCandidateCount demoStream 10 10 = 6
    ∧ (((setInitialSignals demoStream false false (1 : Int) 0 10 10
          (FindSignalModel.fresh Int)).initial_signals.length : Nat) : Int)
        ≠ statedCandidateCount demoStream 10 10 := by
  decide

/-- C7 (amended). The number of candidates that `setInitialSignals` writes is
the sum over the entries of `last_msgs` of the sum over `size` in `[min, max]`
of `max 0 (total_bits - size + 1)`; one 16-bit source with size range `[8, 8]`
yields 9 candidates. -/
theorem setInitialSignals_count (can : CanStream) (little_endian is_signed : Bool)
    (factor offset : D) (min_size max_size : Int) (m : FindSignalModel D) :
    (((setInitialSignals can little_endian is_signed factor offset min_size max_size
        m).initial_signals.length : Nat) : Int)
      = fittingCandidateCount can min_size max_size
    ∧ (setInitialSignals oneSourceStream false false (1 : Int) 0 8 8
        (FindSignalModel.fresh Int)).initial_signals.length = 9 :=
  ⟨length_setInitialSignals can little_endian is_signed factor offset min_size max_size m,
    by decide⟩

/-! ## History -/

/-- The generation that is current: the top of `histories`, or the empty
generation when `histories` is empty. -/
theorem reachable_current_generation (get_raw_value : List Nat → Nat → Signal D → D)
    (m : FindSignalModel D) (hr : Reachable get_raw_value m) :
    m.filtered_signals = m.histories.getLast?.getD [] := by
  induction hr with
  | fresh => rfl
  | search sched can cmp _ _ => simp [search]
  | @undo m _ ih =>
    unfold undo
    by_cases h : m.histories.isEmpty = true
    · simp only [h, if_true]
      exact ih
    · simp only [h]
      by_cases h2 : m.histories.dropLast.isEmpty = true
      · simp only [h2, if_true]
        rw [List.isEmpty_iff] at h2
        simp [h2]
      · simp [h2]
  | reset _ _ => rfl
  | setInitialSignals can le sg f o lo hi _ _ ih => exact ih

/-- The example model after one search is reachable. -/
theorem reachable_demoSearched : Reachable demoDecode demoSearched :=
  Reachable.search _ _ _ (Reachable.setInitialSignals _ _ _ _ _ _ _ rfl Reachable.fresh)

/-- C8. Undo round trip: `search` followed by `undo` leaves `histories` as it
was before the search, leaves `initial_signals` unchanged, and leaves
`filtered_signals` equal to the previous top of `histories`, or empty when
`histories` was empty; from a reachable state the whole model is restored. -/
theorem undo_search_round_trip (sched : Schedule D)
    (get_raw_value : List Nat → Nat → Signal D → D) (can : CanStream) (cmp : D → Bool)
    (m : FindSignalModel D) :
    (undo (search sched get_raw_value can cmp m)).histories = m.histories
    ∧ (undo (search sched get_raw_value can cmp m)).initial_signals = m.initial_signals
    ∧ (undo (search sched get_raw_value can cmp m)).filtered_signals
        = (match m.histories.getLast? with
           | some g => g
           | none => [])
    ∧ (Reachable get_raw_value m → undo (search sched get_raw_value can cmp m) = m) := by
  have hf : (undo (search sched get_raw_value can cmp m)).filtered_signals
      = m.histories.getLast?.getD [] := by
    simp only [undo, search, List.isEmpty_iff, List.append_eq_nil, List.cons_ne_self,
      and_false, if_false, List.dropLast_concat]
    by_cases h : m.histories = []
    · simp [h]
    · simp [h]
  have hh : (undo (search sched get_raw_value can cmp m)).histories = m.histories := by
    simp [undo, search]
  have hi : (undo (search sched get_raw_value can cmp m)).initial_signals
      = m.initial_signals := by
    simp [undo, search]
  refine ⟨hh, hi, ?_, ?_⟩
  · rw [hf]
    cases m.histories.getLast? <;> rfl
  · intro hr
    have hcur := reachable_current_generation get_raw_value m hr
    cases m with
    | mk fs is hs =>
      cases hu : undo (search sched get_raw_value can cmp
        { filtered_signals := fs, initial_signals := is, histories := hs }) with
      | mk fs2 is2 hs2 =>
        rw [hu] at hf hh hi
        simp only at hf hh hi hcur
        rw [hf, hh, hi, ← hcur]

/-- C8 at the example model after one search: a second search followed by
`undo` restores it. -/
theorem undo_search_round_trip_witness :
    Reachable demoDecode demoSearched
    ∧ undo (search (Schedule.reversed Int) demoDecode demoStream (fun v => v == 10)
        demoSearched) = demoSearched :=
  ⟨reachable_demoSearched,
    (undo_search_round_trip (Schedule.reversed Int) demoDecode demoStream (fun v => v == 10)
      demoSearched).2.2.2 reachable_demoSearched⟩

/-- C9. Current-generation invariant: in every reachable state
`filtered_signals` is the last element of `histories` when `histories` is not
empty, and is empty when `histories` is empty. -/
theorem filtered_signals_is_history_top (get_raw_value : List Nat → Nat → Signal D → D)
    (m : FindSignalModel D) (hr : Reachable get_raw_value m) :
    (m.histories ≠ [] → m.histories.getLast? = some m.filtered_signals)
    ∧ (m.histories = [] → m.filtered_signals = []) := by
  have hcur := reachable_current_generation get_raw_value m hr
  refine ⟨?_, ?_⟩
  · intro hne
    rw [hcur]
    cases h : m.histories.getLast? with
    | none => exact absurd (List.getLast?_eq_none_iff.mp h) hne
    | some g => rfl
  · intro he
    rw [hcur, he]
    rfl

/-- C9 at the example model after one search, whose history holds one
generation. -/
theorem filtered_signals_is_history_top_witness :
    Reachable demoDecode demoSearched
    ∧ (demoSearched.histories ≠ []
        → demoSearched.histories.getLast? = some demoSearched.filtered_signals)
    ∧ (demoSearched.histories = [] → demoSearched.filtered_signals = []) :=
  ⟨reachable_demoSearched,
    filtered_signals_is_history_top demoDecode demoSearched reachable_demoSearched⟩

/-- C10. `search` appends exactly one generation to `histories`, also when no
candidate survives, and leaves the generations pushed before unchanged;
`undo` on a non-empty history removes exactly the last generation and leaves
the earlier generations and `initial_signals` unchanged. -/
theorem histories_append_only (sched : Schedule D)
    (get_raw_value : List Nat → Nat → Signal D → D) (can : CanStream) (cmp : D → Bool)
    (m : FindSignalModel D) :
    ((search sched get_raw_value can cmp m).histories
        = m.histories ++ [(search sched get_raw_value can cmp m).filtered_signals]
      ∧ (search sched get_raw_value can cmp m).histories.length = m.histories.length + 1
      ∧ ∀ i, i < m.histories.length →
          (search sched get_raw_value can cmp m).histories[i]? = m.histories[i]?)
    ∧ (m.histories ≠ [] →
        (∃ g, m.histories = (undo m).histories ++ [g])
        ∧ (undo m).histories.length + 1 = m.histories.length
        ∧ (∀ i, i < (undo m).histories.length → (undo m).histories[i]? = m.histories[i]?)
        ∧ (undo m).initial_signals = m.initial_signals) := by
  refine ⟨⟨rfl, by simp [search], ?_⟩, ?_⟩
  · intro i hi
    simp only [search]
    rw [List.getElem?_append_left hi]
  · intro hne
    have hu : (undo m).histories = m.histories.dropLast := by
      simp [undo, hne]
    have hi : (undo m).initial_signals = m.initial_signals := by
      simp [undo, hne]
    have hsplit : m.histories = m.histories.dropLast ++ [m.histories.getLast hne] :=
      (List.dropLast_append_getLast hne).symm
    rw [hu]
    refine ⟨⟨_, hsplit⟩, ?_, ?_, hi⟩
    · rw [List.length_dropLast]
      have := List.length_pos.mpr hne
      omega
    · intro i hlt
      conv_rhs => rw [hsplit]
      rw [List.getElem?_append_left hlt]

/-- C10 at the example model after one search: its history is not empty, so
`undo` removes the one generation. -/
theorem histories_append_only_witness :
    demoSearched.histories ≠ []
    ∧ ((∃ g, demoSearched.histories = (undo demoSearched).histories ++ [g])
      ∧ (undo demoSearched).histories.length + 1 = demoSearched.histories.length
      ∧ (∀ i, i < (undo demoSearched).histories.length →
            (undo demoSearched).histories[i]? = demoSearched.histories[i]?)
      ∧ (undo demoSearched).initial_signals = demoSearched.initial_signals) :=
  ⟨by decide,
    (histories_append_only (Schedule.sequential Int) demoDecode demoStream (fun v => v == 5)
      demoSearched).2 (by decide)⟩

/-! ## Undo, reset and the undo button -/

/-- C11. Undo on an empty history changes nothing: the model after `undo` is
the model before it, so `histories`, `filtered_signals` and `initial_signals`
are all unchanged. -/
theorem undo_empty_history_noop (m : FindSignalModel D) (h : m.histories = []) :
    undo m = m
    ∧ (undo m).histories = m.histories
    ∧ (undo m).filtered_signals = m.filtered_signals
    ∧ (undo m).initial_signals = m.initial_signals := by
  have hu : undo m = m := by simp [undo, h]
  rw [hu]
  exact ⟨rfl, rfl, rfl, rfl⟩

/-- C11 at the example model, whose history is empty and whose
`initial_signals` is not. -/
theorem undo_empty_history_noop_witness :
    demoModel.histories = []
    ∧ (undo demoModel = demoModel
      ∧ (undo demoModel).histories = demoModel.histories
      ∧ (undo demoModel).filtered_signals = demoModel.filtered_signals
      ∧ (undo demoModel).initial_signals = demoModel.initial_signals) :=
  ⟨by decide, undo_empty_history_noop demoModel (by decide)⟩

/-- C12. The undo enablement that `modelReset` computes is true exactly when
`histories` holds at least two generations; an undo made while it is true
removes one generation and leaves `histories` non-empty. -/
theorem undo_enabled_iff_two_generations (m : FindSignalModel D) :
    ((modelReset m).undo_btn_enabled = true ↔ 2 ≤ m.histories.length)
    ∧ ((modelReset m).undo_btn_enabled = true →
        (undo m).histories ≠ [] ∧ (undo m).histories.length + 1 = m.histories.length) := by
  have hiff : (modelReset m).undo_btn_enabled = true ↔ 2 ≤ m.histories.length := by
    simp only [modelReset, decide_eq_true_eq]
    omega
  refine ⟨hiff, ?_⟩
  intro hen
  have h2 := hiff.mp hen
  have hne : m.histories ≠ [] := by
    intro h
    rw [h] at h2
    simp at h2
  have hu : (undo m).histories = m.histories.dropLast := by
    simp [undo, hne]
  have hlen : (undo m).histories.length + 1 = m.histories.length := by
    rw [hu, List.length_dropLast]
    omega
  refine ⟨?_, hlen⟩
  intro h
  rw [h] at hlen
  simp at hlen
  omega

/-- C12 at the example model after two searches: undo is enabled and leaves
one generation. -/
theorem undo_enabled_iff_two_generations_witness :
    (modelReset demoSearchedTwice).undo_btn_enabled = true
    ∧ ((undo demoSearchedTwice).histories ≠ []
      ∧ (undo demoSearchedTwice).histories.length + 1 = demoSearchedTwice.histories.length)
    ∧ (modelReset demoSearched).undo_btn_enabled = false :=
  ⟨by decide, (undo_enabled_iff_two_generations demoSearchedTwice).2 (by decide), by decide⟩

/-- C13. Reset clears everything: after `reset`, `histories`,
`filtered_signals` and `initial_signals` are all empty, from every state. -/
theorem reset_clears_everything (m : FindSignalModel D) :
    (reset m).histories = [] ∧ (reset m).filtered_signals = []
    ∧ (reset m).initial_signals = [] ∧ reset m = FindSignalModel.fresh D :=
  ⟨rfl, rfl, rfl, rfl⟩

/-! ## Determinism and the empty log -/

/-- C14. Determinism of the survivor set: when the generations that two
searches read are rearrangements of each other, the generations they produce
under the same log and predicate are rearrangements of each other, whatever
the order in which the workers append; they have the same members. -/
theorem search_survivors_perm_invariant (sched sched' : Schedule D)
    (get_raw_value : List Nat → Nat → Signal D → D) (can : CanStream) (cmp : D → Bool)
    (m m' : FindSignalModel D) (hp : (prev_sigs m).Perm (prev_sigs m')) :
    ((search sched get_raw_value can cmp m).filtered_signals).Perm
        ((search sched' get_raw_value can cmp m').filtered_signals)
    ∧ ∀ c, c ∈ (search sched get_raw_value can cmp m).filtered_signals
        ↔ c ∈ (search sched' get_raw_value can cmp m').filtered_signals := by
  have hperm : ((search sched get_raw_value can cmp m).filtered_signals).Perm
      ((search sched' get_raw_value can cmp m').filtered_signals) := by
    unfold search
    simp only []
    exact (sched.perm _).trans ((hp.filterMap _).trans (sched'.perm _).symm)
  exact ⟨hperm, fun c => hperm.mem_iff⟩

/-- C14 at the example model and the same model with its candidates in
reverse order, appended in input order and in reverse order. -/
theorem search_survivors_perm_invariant_witness :
    (prev_sigs demoModel).Perm (prev_sigs demoModelReversed)
    ∧ ((search (Schedule.sequential Int) demoDecode demoStream (fun v => v == 5)
          demoModel).filtered_signals).Perm
        ((search (Schedule.reversed Int) demoDecode demoStream (fun v => v == 5)
          demoModelReversed).filtered_signals)
    ∧ ∀ c, c ∈ (search (Schedule.sequential Int) demoDecode demoStream (fun v => v == 5)
                demoModel).filtered_signals
        ↔ c ∈ (search (Schedule.reversed Int) demoDecode demoStream (fun v => v == 5)
                demoModelReversed).filtered_signals :=
  ⟨(List.reverse_perm demoModel.initial_signals).symm,
    search_survivors_perm_invariant (Schedule.sequential Int) (Schedule.reversed Int)
      demoDecode demoStream (fun v => v == 5) demoModel demoModelReversed
      (List.reverse_perm demoModel.initial_signals).symm⟩

/-- C16. Empty log: when the log has no sources, `setInitialSignals` writes a
generation without candidates; a search that reads a generation without
candidates produces none; so the first search on an empty log produces none. -/
theorem empty_log_yields_nothing (sched : Schedule D)
    (get_raw_value : List Nat → Nat → Signal D → D) (can : CanStream) (cmp : D → Bool)
    (little_endian is_signed : Bool) (factor offset : D) (min_size max_size : Int)
    (m : FindSignalModel D) (hlog : can.last_msgs = []) :
    (setInitialSignals can little_endian is_signed factor offset min_size max_size
        m).initial_signals = []
    ∧ (∀ m' : FindSignalModel D, prev_sigs m' = [] →
        (search sched get_raw_value can cmp m').filtered_signals = [])
    ∧ (m.histories = [] →
        (search sched get_raw_value can cmp
          (setInitialSignals can little_endian is_signed factor offset min_size max_size
            m)).filtered_signals = []) := by
  have hgen : (setInitialSignals can little_endian is_signed factor offset min_size max_size
      m).initial_signals = [] := by
    simp [setInitialSignals, hlog]
  have hsearch : ∀ m' : FindSignalModel D, prev_sigs m' = [] →
      (search sched get_raw_value can cmp m').filtered_signals = [] := by
    intro m' hm'
    unfold search
    simp only [hm', List.filterMap_nil]
    exact List.Perm.eq_nil (sched.perm [])
  refine ⟨hgen, hsearch, ?_⟩
  intro hh
  apply hsearch
  have : (setInitialSignals can little_endian is_signed factor offset min_size max_size
      m).histories = [] := hh
  rw [prev_sigs_of_histories_nil _ this, hgen]

/-- C16 on the log without sources, from the freshly constructed model. -/
theorem empty_log_yields_nothing_witness :
    (emptyStream.last_msgs = [] ∧ (FindSignalModel.fresh Int).histories = [])
    ∧ (setInitialSignals emptyStream true false (1 : Int) 0 1 64
        (FindSignalModel.fresh Int)).initial_signals = []
    ∧ (search (Schedule.sequential Int) demoDecode emptyStream (fun v => v == 5)
        (setInitialSignals emptyStream true false (1 : Int) 0 1 64
          (FindSignalModel.fresh Int))).filtered_signals = [] :=
  ⟨⟨rfl, rfl⟩,
    (empty_log_yields_nothing (Schedule.sequential Int) demoDecode emptyStream
      (fun v => v == 5) true false (1 : Int) 0 1 64 (FindSignalModel.fresh Int) rfl).1,
    (empty_log_yields_nothing (Schedule.sequential Int) demoDecode emptyStream
      (fun v => v == 5) true false (1 : Int) 0 1 64 (FindSignalModel.fresh Int) rfl).2.2 rfl⟩

/-! ## The scenario of the specification -/

/-- C15 as stated fails: on the one-source log, after the generator ran with
sizes 8 to 8, unsigned, big-endian, factor 1, offset 0, the search for
"equals 5" leaves two survivors, not one: the record at time 2 (bytes
`0x00 0x0A`) decodes to 5 under the layout that starts one bit earlier. -/
theorem scenario_one_survivor_fails :
    (search (Schedule.sequential Int) decode oneSourceStream (fun v => decide (v = 5))
        scenarioModel).filtered_signals.length = 2
    ∧ ¬ ∃ c, (search (Schedule.sequential Int) decode oneSourceStream
                (fun v => decide (v = 5)) scenarioModel).filtered_signals = [c]
            ∧ c.mono_time = 1 ∧ c.values = [(1, 5)] := by
  have h : (search (Schedule.sequential Int) decode oneSourceStream (fun v => decide (v = 5))
      scenarioModel).filtered_signals.length = 2 := by decide
  refine ⟨h, ?_⟩
  rintro ⟨c, hc, _⟩
  rw [hc] at h
  simp at h

/-- C15 (amended). In the scenario the generator writes 9 candidates and the
search for "equals 5" leaves exactly two survivors, in the order of the
schedule: the layout at start bit 8 with cursor 1 and trail `[(1, 5)]`, and
the layout at start bit 7 with cursor 2 and trail `[(2, 5)]`. -/
theorem scenario_survivors (sched : Schedule Int) :
    scenarioModel.initial_signals.length = 9
    ∧ ((search sched decode oneSourceStream (fun v => decide (v = 5))
          scenarioModel).filtered_signals).Perm
        [{ id := 7, mono_time := 1, sig := demoSig 8, values := [(1, 5)] },
         { id := 7, mono_time := 2, sig := demoSig 7, values := [(2, 5)] }]
    ∧ (search sched decode oneSourceStream (fun v => decide (v = 5))
          scenarioModel).filtered_signals.length = 2 := by
  have hsurv : (prev_sigs scenarioModel).filterMap
      (scanSignal decode oneSourceStream (fun v => decide (v = 5)))
        = [{ id := 7, mono_time := 2, sig := demoSig 7, values := [(2, 5)] },
           { id := 7, mono_time := 1, sig := demoSig 8, values := [(1, 5)] }] := by
    decide
  have hperm : ((search sched decode oneSourceStream (fun v => decide (v = 5))
          scenarioModel).filtered_signals).Perm
        [{ id := 7, mono_time := 1, sig := demoSig 8, values := [(1, 5)] },
         { id := 7, mono_time := 2, sig := demoSig 7, values := [(2, 5)] }] := by
    unfold search
    simp only []
    rw [hsurv]
    exact (sched.perm _).trans (List.Perm.swap _ _ _)
  exact ⟨by decide, hperm, by rw [hperm.length_eq]; rfl⟩

/-! ## The predicate of `FindSignalDlg::search` -/

/-- C17. Predicate shapes: for bounds `v1`, `v2` and a value `v`, the
predicate built for the comparison index 0 to 6 (items "=", ">", ">=", "!=",
"<", "<=", "between") holds on `v` exactly when `v = v1`, `v > v1`, `v ≥ v1`,
`v ≠ v1`, `v < v1`, `v ≤ v1` and `v1 ≤ v ∧ v ≤ v2` respectively. -/
theorem compare_predicate_shapes [LinearOrder D] (v1 v2 v : D) :
    compare_cb_items = ["=", ">", ">=", "!=", "<", "<=", "between"]
    ∧ (∃ p, compare_predicate 0 v1 v2 = some p ∧ (p v = true ↔ v = v1))
    ∧ (∃ p, compare_predicate 1 v1 v2 = some p ∧ (p v = true ↔ v > v1))
    ∧ (∃ p, compare_predicate 2 v1 v2 = some p ∧ (p v = true ↔ v ≥ v1))
    ∧ (∃ p, compare_predicate 3 v1 v2 = some p ∧ (p v = true ↔ v ≠ v1))
    ∧ (∃ p, compare_predicate 4 v1 v2 = some p ∧ (p v = true ↔ v < v1))
    ∧ (∃ p, compare_predicate 5 v1 v2 = some p ∧ (p v = true ↔ v ≤ v1))
    ∧ (∃ p, compare_predicate 6 v1 v2 = some p ∧ (p v = true ↔ v1 ≤ v ∧ v ≤ v2)) := by
  refine ⟨rfl, ⟨_, rfl, ?_⟩, ⟨_, rfl, ?_⟩, ⟨_, rfl, ?_⟩, ⟨_, rfl, ?_⟩, ⟨_, rfl, ?_⟩,
    ⟨_, rfl, ?_⟩, ⟨_, rfl, ?_⟩⟩
  all_goals simp

/-- C18. The rule "text that is not a number is rejected" is broken at the
empty bound: the example dialog has an empty first bound field, which is not
a number, and the comparison "="; `FindSignalDlg::search` still builds a
predicate, "equals 0", and the model search runs with it, so that the
history grows by one generation and the model is no longer the one before. -/
theorem dlg_search_accepts_empty_bound :
    demoDlg.value1 = "" ∧ demoParse demoDlg.value1 = none
    ∧ toDouble demoParse demoDlg.value1 = 0
    ∧ ∃ dlg', FindSignalDlg.search demoParse (Schedule.sequential Int) decode
                oneSourceStream demoDlg = some dlg'
        ∧ dlg'.model = search (Schedule.sequential Int) decode oneSourceStream
            (fun v => decide (v = 0)) scenarioModel
        ∧ dlg'.model.histories.length = demoDlg.model.histories.length + 1
        ∧ dlg'.model ≠ demoDlg.model :=
  ⟨rfl, by decide, by decide, _, rfl, rfl, by decide, by decide⟩

/-! ## Generations only narrow, trails grow by one per round -/

/-- Whatever the order of the events, a pushed candidate copies the id and sig
of its origin and extends the trail by one entry. -/
theorem scanSignal_fields (get_raw_value : List Nat → Nat → Signal D → D) (can : CanStream)
    (cmp : D → Bool) (s c : SearchSignal D)
    (h : scanSignal get_raw_value can cmp s = some c) :
    c.id = s.id ∧ c.sig = s.sig ∧ ∃ entry, c.values = s.values ++ [entry] := by
  unfold scanSignal at h
  simp only [] at h
  split at h
  · injection h with h
    subst h
    exact ⟨rfl, rfl, _, rfl⟩
  · exact absurd h (by simp)

/-- The (id, sig) pairs of the survivors, in input order, are a sublist of the
(id, sig) pairs of the generation read. -/
theorem filterMap_scanSignal_keys_sublist (get_raw_value : List Nat → Nat → Signal D → D)
    (can : CanStream) (cmp : D → Bool) (G : List (SearchSignal D)) :
    List.Sublist ((G.filterMap (scanSignal get_raw_value can cmp)).map (fun c => (c.id, c.sig)))
      (G.map (fun c => (c.id, c.sig))) := by
  induction G with
  | nil => exact List.Sublist.slnil
  | cons a t ih =>
    cases h : scanSignal get_raw_value can cmp a with
    | none =>
      rw [List.filterMap_cons_none h, List.map_cons]
      exact List.Sublist.cons _ ih
    | some c =>
      rw [List.filterMap_cons_some h, List.map_cons, List.map_cons]
      obtain ⟨h1, h2, _⟩ := scanSignal_fields get_raw_value can cmp a c h
      rw [h1, h2]
      exact List.Sublist.cons₂ _ ih

/-- The generation a search reads is the last element of `initial_signals`
followed by `histories`. -/
theorem getLast_initial_histories (m : FindSignalModel D) :
    (m.initial_signals :: m.histories).getLast? = some (prev_sigs m) := by
  rcases List.eq_nil_or_concat m.histories with h | ⟨l, x, h⟩
  · simp [prev_sigs, h]
  · rw [List.concat_eq_append] at h
    have h1 : (m.initial_signals :: (l ++ [x])).getLast? = some x := by
      rw [← List.cons_append, List.getLast?_concat]
    simp [prev_sigs, h, h1]

/-- In a list of generations with non-increasing sizes the last one is the
smallest. -/
theorem length_getLast_le {α : Type} (L : List (List α)) (x : List α)
    (hp : L.Pairwise (fun a b => b.length ≤ a.length)) (hx : L.getLast? = some x) :
    ∀ a ∈ L, x.length ≤ a.length := by
  rcases List.eq_nil_or_concat L with h | ⟨l, b, h⟩
  · intro a ha
    rw [h] at ha
    exact absurd ha (List.not_mem_nil a)
  · rw [List.concat_eq_append] at h
    subst h
    rw [List.getLast?_concat] at hx
    injection hx with hx
    subst hx
    rw [List.pairwise_append] at hp
    intro a ha
    rcases List.mem_append.mp ha with ha | ha
    · exact hp.2.2 a ha b (List.mem_singleton_self b)
    · rw [List.mem_singleton.mp ha]

/-- A search produces at most as many candidates as it reads. -/
theorem length_search_filtered_le (sched : Schedule D)
    (get_raw_value : List Nat → Nat → Signal D → D) (can : CanStream) (cmp : D → Bool)
    (m : FindSignalModel D) :
    (search sched get_raw_value can cmp m).filtered_signals.length ≤ (prev_sigs m).length := by
  unfold search
  simp only []
  rw [(sched.perm _).length_eq]
  exact List.length_filterMap_le _ _

/-- In a reachable state the sizes of `initial_signals` and of the generations
of `histories`, in this order, never increase. -/
theorem reachable_sizes_pairwise (get_raw_value : List Nat → Nat → Signal D → D)
    (m : FindSignalModel D) (hr : Reachable get_raw_value m) :
    (m.initial_signals :: m.histories).Pairwise (fun a b => b.length ≤ a.length) := by
  induction hr with
  | fresh => simp [FindSignalModel.fresh]
  | @search sched can cmp m _ ih =>
    have hle := length_search_filtered_le sched get_raw_value can cmp m
    have hlast := length_getLast_le _ _ ih (getLast_initial_histories m)
    show ((m.initial_signals :: (m.histories ++
      [(search sched get_raw_value can cmp m).filtered_signals]))).Pairwise _
    rw [← List.cons_append, List.pairwise_append]
    refine ⟨ih, List.pairwise_singleton _ _, ?_⟩
    intro a ha b hb
    rw [List.mem_singleton.mp hb]
    exact Nat.le_trans hle (hlast a ha)
  | @undo m _ ih =>
    by_cases h : m.histories = []
    · have : undo m = m := by simp [undo, h]
      rw [this]
      exact ih
    · have h1 : (undo m).histories = m.histories.dropLast := by simp [undo, h]
      have h2 : (undo m).initial_signals = m.initial_signals := by simp [undo, h]
      rw [h1, h2]
      exact ih.sublist ((List.dropLast_sublist _).cons₂ _)
  | reset _ _ => simp [reset]
  | setInitialSignals can le sg f o lo hi hh _ _ =>
    simp [setInitialSignals, hh]

/-- C19. Refinement only narrows: a search produces at most as many candidates
as the generation it reads has, and the (id, sig) pairs of the survivors are,
up to order, a sublist of the (id, sig) pairs read; in every reachable state
the sizes of the generations in `histories` never increase from bottom to top
and none exceeds the size of `initial_signals`. -/
theorem search_only_narrows (sched : Schedule D)
    (get_raw_value : List Nat → Nat → Signal D → D) (can : CanStream) (cmp : D → Bool)
    (m : FindSignalModel D) :
    (search sched get_raw_value can cmp m).filtered_signals.length ≤ (prev_sigs m).length
    ∧ List.Subperm
        ((search sched get_raw_value can cmp m).filtered_signals.map (fun c => (c.id, c.sig)))
        ((prev_sigs m).map (fun c => (c.id, c.sig)))
    ∧ (Reachable get_raw_value m →
        m.histories.Pairwise (fun a b => b.length ≤ a.length)
        ∧ ∀ g ∈ m.histories, g.length ≤ m.initial_signals.length) := by
  refine ⟨length_search_filtered_le sched get_raw_value can cmp m, ?_, ?_⟩
  · have hp : ((search sched get_raw_value can cmp m).filtered_signals.map
        (fun c => (c.id, c.sig))).Perm
        (((prev_sigs m).filterMap (scanSignal get_raw_value can cmp)).map
          (fun c => (c.id, c.sig))) := by
      unfold search
      simp only []
      exact (sched.perm _).map _
    exact hp.subperm.trans
      (filterMap_scanSignal_keys_sublist get_raw_value can cmp (prev_sigs m)).subperm
  · intro hr
    have hpw := reachable_sizes_pairwise get_raw_value m hr
    rw [List.pairwise_cons] at hpw
    exact ⟨hpw.2, hpw.1⟩

/-- C19 at the example model after two searches, which is reachable: its
generations have sizes 2 and 1, out of 10 initial candidates. -/
theorem search_only_narrows_witness :
    Reachable demoDecode demoSearchedTwice
    ∧ (demoSearchedTwice.histories.Pairwise (fun a b => b.length ≤ a.length)
      ∧ ∀ g ∈ demoSearchedTwice.histories,
          g.length ≤ demoSearchedTwice.initial_signals.length)
    ∧ demoSearchedTwice.histories.map List.length = [2, 1]
    ∧ demoSearchedTwice.initial_signals.length = 10 :=
  ⟨Reachable.search _ _ _ reachable_demoSearched,
    (search_only_narrows (Schedule.sequential Int) demoDecode demoStream (fun v => v == 5)
      demoSearchedTwice).2.2 (Reachable.search _ _ _ reachable_demoSearched),
    by decide, by decide⟩

/-- C20. Trail length equals round number: from a model with an empty history
whose initial candidates all have an empty trail, after any sequence of
`search` and `undo` calls every candidate of `histories[i]` has a trail of
exactly `i + 1` entries. -/
theorem trail_length_is_round_number (get_raw_value : List Nat → Nat → Signal D → D)
    (m0 m : FindSignalModel D) (h0 : m0.histories = [])
    (ht : ∀ c ∈ m0.initial_signals, c.values = [])
    (hr : SearchUndoReachable get_raw_value m0 m) :
    ∀ i g, m.histories[i]? = some g → ∀ c ∈ g, c.values.length = i + 1 := by
  have inv : m.initial_signals = m0.initial_signals
      ∧ ∀ i g, m.histories[i]? = some g → ∀ c ∈ g, c.values.length = i + 1 := by
    induction hr with
    | start =>
      refine ⟨rfl, ?_⟩
      intro i g hg
      rw [h0] at hg
      simp at hg
    | @search sched can cmp m _ ih =>
      obtain ⟨hinit, hhist⟩ := ih
      refine ⟨hinit, ?_⟩
      intro i g hg c hc
      have hh : (search sched get_raw_value can cmp m).histories
          = m.histories ++ [(search sched get_raw_value can cmp m).filtered_signals] := rfl
      rw [hh] at hg
      by_cases hi : i < m.histories.length
      · rw [List.getElem?_append_left hi] at hg
        exact hhist i g hg c hc
      · have hi' : m.histories.length ≤ i := Nat.le_of_not_lt hi
        rw [List.getElem?_append_right hi'] at hg
        have hidx : i - m.histories.length = 0 := by
          by_contra hne
          have hpos : 1 ≤ i - m.histories.length := Nat.pos_of_ne_zero hne
          rw [List.getElem?_eq_none (by simpa using hpos)] at hg
          exact absurd hg (by simp)
        have hi_eq : i = m.histories.length := by omega
        rw [hidx] at hg
        simp only [List.getElem?_cons_zero, Option.some.injEq] at hg
        rw [← hg, mem_search_filtered] at hc
        obtain ⟨s, hs, hsc⟩ := hc
        obtain ⟨_, _, entry, hval⟩ := scanSignal_fields get_raw_value can cmp s c hsc
        rw [hval, List.length_append, List.length_singleton, hi_eq]
        congr 1
        rcases List.eq_nil_or_concat m.histories with hnil | ⟨l, x, hl⟩
        · rw [prev_sigs_of_histories_nil m hnil, hinit] at hs
          rw [ht s hs, hnil]
          rfl
        · rw [List.concat_eq_append] at hl
          have hprev : prev_sigs m = x := by
            simp [prev_sigs, hl]
          rw [hprev] at hs
          have hx : m.histories[l.length]? = some x := by
            rw [hl, List.getElem?_append_right (Nat.le_refl _)]
            simp
          rw [hhist l.length x hx s hs, hl]
          simp
    | @undo m _ ih =>
      obtain ⟨hinit, hhist⟩ := ih
      by_cases h : m.histories = []
      · have hu : undo m = m := by simp [undo, h]
        rw [hu]
        exact ⟨hinit, hhist⟩
      · have h1 : (undo m).histories = m.histories.dropLast := by simp [undo, h]
        have h2 : (undo m).initial_signals = m.initial_signals := by simp [undo, h]
        rw [h1, h2]
        refine ⟨hinit, ?_⟩
        intro i g hg c hc
        rcases List.eq_nil_or_concat m.histories with hnil | ⟨l, x, hl⟩
        · exact absurd hnil h
        · rw [List.concat_eq_append] at hl
          rw [hl, List.dropLast_concat] at hg
          have hlt : i < l.length := by
            by_contra hge
            rw [List.getElem?_eq_none (Nat.le_of_not_lt hge)] at hg
            exact absurd hg (by simp)
          have hg' : m.histories[i]? = some g := by
            rw [hl, List.getElem?_append_left hlt]
            exact hg
          exact hhist i g hg' c hc
  exact inv.2

/-- C20 at the example model after the searches "equals 5" and "equals 7":
the history was empty, the initial trails were empty. -/
theorem trail_length_is_round_number_witness :
    (demoModel.histories = []
      ∧ (∀ c ∈ demoModel.initial_signals, c.values = [])
      ∧ SearchUndoReachable demoDecode demoModel
          (search (Schedule.sequential Int) demoDecode demoStream (fun v => v == 7)
            (search (Schedule.reversed Int) demoDecode demoStream (fun v => v == 5)
              demoModel)))
    ∧ ∀ i g,
        (search (Schedule.sequential Int) demoDecode demoStream (fun v => v == 7)
          (search (Schedule.reversed Int) demoDecode demoStream (fun v => v == 5)
            demoModel)).histories[i]? = some g →
        ∀ c ∈ g, c.values.length = i + 1 :=
  ⟨⟨by decide, by decide,
      SearchUndoReachable.search _ _ _
        (SearchUndoReachable.search _ _ _ SearchUndoReachable.start)⟩,
    trail_length_is_round_number demoDecode demoModel _ (by decide) (by decide)
      (SearchUndoReachable.search _ _ _
        (SearchUndoReachable.search _ _ _ SearchUndoReachable.start))⟩

end FindSignal
